import Mathlib

/-!
Verification of the request-pacing and response-cache layer of
src/gemini_integration.py (classes RateLimiter and AIAssistant).

Time is modelled by the rationals: Python float timestamps enter the code
only through subtraction and order comparison, which ℚ models exactly on
the integral and fractional instants the properties quantify over.

The Python dict backing the completion cache is modelled by an
insertion-ordered association list, matching CPython dict semantics:
assignment to an existing key updates the value in place, assignment to a
fresh key appends, deletion removes the entry, and iteration follows
insertion order.
-/

namespace CursorClone

/-- State of class RateLimiter (src/gemini_integration.py lines 511-517):
a fixed request budget and the list of recorded request timestamps. -/
structure RateLimiter where
  requests_per_minute : Int
  request_times : List ℚ
deriving Repr, DecidableEq

/-- RateLimiter.__init__ (lines 514-517): stores the argument and starts
with an empty timestamp list.  The source performs no validation of
requests_per_minute; the default at the single construction site is 60. -/
def RateLimiter.init (requests_per_minute : Int) : RateLimiter :=
  { requests_per_minute := requests_per_minute, request_times := [] }

/-- The purge on lines 525-528: keep only timestamps strictly younger
than 60 seconds. -/
def purge (now : ℚ) (ts : List ℚ) : List ℚ :=
  ts.filter (fun t => now - t < 60)

/-- One call to RateLimiter.wait_if_needed (lines 519-538), run at wall
time `now` (the value of time.time() read on line 522).  Returns the new
state together with the duration actually slept (0 when the sleep branch
is not taken).  Returns none exactly where Python raises: when the
capacity check passes on an empty list, min([]) on line 532 raises
ValueError (reachable only with requests_per_minute ≤ 0).  Note the
source appends `now` — the pre-sleep entry time — on line 538, not the
time after waiting. -/
def RateLimiter.wait_if_needed (rl : RateLimiter) (now : ℚ) :
    Option (RateLimiter × ℚ) :=
  let ts := purge now rl.request_times
  if (ts.length : Int) ≥ rl.requests_per_minute then
    match ts.min? with
    | none => none
    | some oldest =>
        let wait_time := 60 - (now - oldest)
        some ({ requests_per_minute := rl.requests_per_minute,
                request_times := ts ++ [now] },
              if wait_time > 0 then wait_time else 0)
  else
    some ({ requests_per_minute := rl.requests_per_minute,
            request_times := ts ++ [now] }, 0)

/-- Observable record of one wait_if_needed call: the time the call
acquired the lock and read time.time(), the duration slept, and the time
the call returned (the admission instant). -/
structure CallRecord where
  start : ℚ
  wait : ℚ
  finish : ℚ
deriving Repr, DecidableEq

/-- Serialized execution of a sequence of wait_if_needed calls with given
arrival times.  Because the source holds self.lock across the whole body,
sleep included (the `async with self.lock:` block on line 521 spans the
await on line 535), calls execute strictly one after another: a call
arriving at `a` starts at max a t where t is the instant the lock was
last freed.  Each element of the result pairs the call record with the
limiter state at that call's return. -/
def runCalls (rl : RateLimiter) (t : ℚ) :
    List ℚ → Option (List (CallRecord × RateLimiter))
  | [] => some []
  | a :: rest =>
      let start := max a t
      match rl.wait_if_needed start with
      | none => none
      | some (rl', w) =>
          (runCalls rl' (start + w) rest).map
            (fun recs => ({ start := start, wait := w, finish := start + w }, rl') :: recs)

/-- Number of admissions (wait_if_needed returns) falling in the trailing
60-second window ending at tEnd. -/
def admissionsInWindow (finishes : List ℚ) (tEnd : ℚ) : Nat :=
  (finishes.filter (fun f => tEnd - 60 < f ∧ f ≤ tEnd)).length

/-- Modelled from the spec: the spec (sections 4.1, 6, 7) gives
RequestPacer a construction-time check missing from the source class
RateLimiter — construction fails with InvalidConfiguration when
maxRequestsPerWindow ≤ 0 or windowDuration ≤ 0. -/
inductive ConfigError where
  | invalidConfiguration
deriving Repr, DecidableEq

/-- Modelled from the spec: RequestPacer construction with the validation
the spec prescribes, for comparison with RateLimiter.init as translated
from the source. -/
def RequestPacer.initChecked (maxRequestsPerWindow : Int) (windowDuration : ℚ) :
    Except ConfigError RateLimiter :=
  if maxRequestsPerWindow ≤ 0 ∨ windowDuration ≤ 0 then
    .error .invalidConfiguration
  else
    .ok (RateLimiter.init maxRequestsPerWindow)

/-- Atomic events of one wait_if_needed call body (lines 519-538), in
source order.  The `async with self.lock:` statement on line 521 wraps
the entire body, so lock acquisition is the first event and release the
last; the await asyncio.sleep on line 535 happens in between when the
sleep branch is taken. -/
inductive LimiterEvent where
  | lockAcquire
  | purgeTimestamps
  | capacityCheck
  | sleepCall
  | appendTimestamp
  | lockRelease
deriving Repr, DecidableEq

/-- The event sequence of one wait_if_needed call; `sleeps` selects
whether the wait branch on lines 534-535 fires. -/
def waitIfNeededEvents (sleeps : Bool) : List LimiterEvent :=
  [.lockAcquire, .purgeTimestamps, .capacityCheck]
    ++ (if sleeps then [.sleepCall] else [])
    ++ [.appendTimestamp, .lockRelease]

/-- Whether some sleepCall event occurs while the lock is held (strictly
between a lockAcquire and the matching lockRelease). -/
def lockHeldDuringSleep (evs : List LimiterEvent) : Bool :=
  (evs.foldl
    (fun acc e =>
      match e with
      | .lockAcquire => (acc.1, true)
      | .lockRelease => (acc.1, false)
      | .sleepCall => (acc.1 || acc.2, acc.2)
      | _ => acc)
    (false, false)).1

/-- AIResponse dataclass (lines 37-50), restricted to the fields the
cache layer observes: the payload, the finish_reason checked by the
caching guard on line 582, and created_at, which __post_init__ sets to
time.time() at construction and which drives staleness and eviction. -/
structure AIResponse where
  content : String
  finish_reason : String
  created_at : ℚ
deriving Repr, DecidableEq

/-- The completion cache: a CPython dict from key strings to responses,
as an insertion-ordered association list. -/
abbrev Cache := List (String × AIResponse)

/-- Python `cache[key]` (and the `key in cache` test via isSome). -/
def dictGet (d : Cache) (k : String) : Option AIResponse :=
  (d.find? (fun p => p.1 == k)).map (fun p => p.2)

/-- Python `cache[key] = value`: update in place when the key is present
(keeping its position in iteration order), append otherwise. -/
def dictSet (d : Cache) (k : String) (v : AIResponse) : Cache :=
  if d.any (fun p => p.1 == k) then
    d.map (fun p => if p.1 == k then (k, v) else p)
  else
    d ++ [(k, v)]

/-- Python `del cache[key]`. -/
def dictDel (d : Cache) (k : String) : Cache :=
  d.filter (fun p => !(p.1 == k))

/-- min(self.completion_cache.keys(), key=lambda k: ...created_at)
(lines 615-618): Python min scans in iteration order keeping the current
element only on a strict decrease, so it returns the first entry
attaining the minimal created_at; min of an empty dict raises ValueError
(the none case). -/
def oldestEntry : Cache → Option (String × AIResponse)
  | [] => none
  | p :: rest =>
      some (rest.foldl
        (fun q r => if r.2.created_at < q.2.created_at then r else q) p)

/-- The keys of the cache are pairwise distinct — true of every Python
dict, and preserved by all operations here. -/
def keysNodup (d : Cache) : Prop :=
  (d.map Prod.fst).Nodup

/-- Cache-relevant state of class AIAssistant (lines 540-547): the
completion cache and its size bound (set to 100 on line 547). -/
structure AIAssistant where
  completion_cache : Cache
  cache_max_size : Nat
deriving Repr, DecidableEq

/-- AIAssistant.__init__ (lines 543-547): empty cache, bound 100. -/
def AIAssistant.init : AIAssistant :=
  { completion_cache := [], cache_max_size := 100 }

/-- AIAssistant._add_to_cache (lines 611-621).  When the cache has
reached cache_max_size the entry with the smallest created_at is deleted
— before and regardless of whether `key` is already present — and then
the response is stored under `key`.  none models the ValueError from
min over an empty dict (reachable only when cache_max_size = 0). -/
def AIAssistant._add_to_cache (a : AIAssistant) (key : String)
    (response : AIResponse) : Option AIAssistant :=
  if a.completion_cache.length ≥ a.cache_max_size then
    match oldestEntry a.completion_cache with
    | none => none
    | some p =>
        some { a with
          completion_cache := dictSet (dictDel a.completion_cache p.1) key response }
  else
    some { a with completion_cache := dictSet a.completion_cache key response }

/-- AIAssistant.clear_cache (lines 623-625). -/
def AIAssistant.clear_cache (a : AIAssistant) : AIAssistant :=
  { a with completion_cache := [] }

/-- The cache check opening AIAssistant.get_code_completion
(lines 564-569): `if cache_key and cache_key in self.completion_cache:`
— cache_key must be a truthy (non-None, nonempty) string and present —
then the entry is returned only when time.time() - created_at < 300
(strict).  A purely read-only step. -/
def cacheLookup (cache : Cache) (cache_key : Option String) (now : ℚ) :
    Option AIResponse :=
  match cache_key with
  | none => none
  | some k =>
      if k = "" then none
      else
        match dictGet cache k with
        | none => none
        | some r => if now - r.created_at < 300 then some r else none

/-- AIAssistant.get_code_completion (lines 561-585), with the awaited
result of gemini_service.generate_completion abstracted as
`serviceResponse` (the outbound call is external to this layer).  On a
fresh cache hit the cached response is returned and the state is
untouched; otherwise the service response is returned, and it is cached
(line 582) only when cache_key is truthy and finish_reason ≠ "error". -/
def AIAssistant.get_code_completion (a : AIAssistant) (cache_key : Option String)
    (now : ℚ) (serviceResponse : AIResponse) : Option (AIResponse × AIAssistant) :=
  match cacheLookup a.completion_cache cache_key now with
  | some cached => some (cached, a)
  | none =>
      match cache_key with
      | none => some (serviceResponse, a)
      | some k =>
          if k ≠ "" ∧ serviceResponse.finish_reason ≠ "error" then
            (a._add_to_cache k serviceResponse).map (fun a' => (serviceResponse, a'))
          else
            some (serviceResponse, a)

/-- One observable operation on the completion cache. -/
inductive CacheOp where
  | put (key : String) (response : AIResponse)
  | get (cache_key : Option String) (now : ℚ) (serviceResponse : AIResponse)
  | clear
deriving Repr, DecidableEq

/-- Run a sequence of cache operations (put = _add_to_cache, get =
get_code_completion, clear = clear_cache). -/
def runOps (a : AIAssistant) : List CacheOp → Option AIAssistant
  | [] => some a
  | .put k r :: rest =>
      match a._add_to_cache k r with
      | none => none
      | some a' => runOps a' rest
  | .get ck now sr :: rest =>
      match a.get_code_completion ck now sr with
      | none => none
      | some (_, a') => runOps a' rest
  | .clear :: rest => runOps a.clear_cache rest

/-! ## Dictionary lemmas -/

theorem find?_map_replace (d : Cache) (k : String) (v : AIResponse)
    (h : d.any (fun p => p.1 == k) = true) :
    (d.map (fun p => if p.1 == k then (k, v) else p)).find?
        (fun p => p.1 == k) = some (k, v) := by
  induction d with
  | nil => simp at h
  | cons e rest ih =>
      simp only [List.map_cons]
      by_cases hp : (e.1 == k) = true
      · rw [if_pos hp]
        exact @List.find?_cons_of_pos _ (fun p => p.1 == k) (k, v) _ (by simp)
      · have hp' : (e.1 == k) = false := Bool.eq_false_iff.mpr hp
        rw [if_neg hp, @List.find?_cons_of_neg _ (fun p => p.1 == k) e _ hp]
        refine ih ?_
        rw [List.any_cons, hp', Bool.false_or] at h
        exact h

theorem find?_append_fresh (d : Cache) (k : String) (v : AIResponse)
    (h : d.any (fun p => p.1 == k) = false) :
    (d ++ [(k, v)]).find? (fun p => p.1 == k) = some (k, v) := by
  induction d with
  | nil => exact @List.find?_cons_of_pos _ (fun p => p.1 == k) (k, v) _ (by simp)
  | cons e rest ih =>
      rw [List.any_cons, Bool.or_eq_false_iff] at h
      rw [List.cons_append,
        @List.find?_cons_of_neg _ (fun p => p.1 == k) e _ (by simp [h.1])]
      exact ih h.2

/-- Storing under a key makes that key map to the stored value. -/
theorem dictGet_dictSet_self (d : Cache) (k : String) (v : AIResponse) :
    dictGet (dictSet d k v) k = some v := by
  unfold dictGet dictSet
  by_cases h : d.any (fun p => p.1 == k) = true
  · rw [if_pos h, find?_map_replace d k v h]
    rfl
  · rw [if_neg h, find?_append_fresh d k v (Bool.eq_false_iff.mpr h)]
    rfl

/-- Storing under a key leaves every other key's binding unchanged. -/
theorem dictGet_dictSet_ne (d : Cache) (k k' : String) (v : AIResponse)
    (hne : k' ≠ k) :
    dictGet (dictSet d k v) k' = dictGet d k' := by
  unfold dictGet dictSet
  by_cases h : d.any (fun p => p.1 == k) = true
  · rw [if_pos h]
    clear h
    induction d with
    | nil => rfl
    | cons e rest ih =>
        simp only [List.map_cons]
        by_cases hp : (e.1 == k) = true
        · have hek : e.1 = k := by simpa using hp
          rw [if_pos hp,
            @List.find?_cons_of_neg _ (fun p => p.1 == k') (k, v) _
              (by simp [Ne.symm hne]),
            @List.find?_cons_of_neg _ (fun p => p.1 == k') e _
              (by simp [hek, Ne.symm hne])]
          exact ih
        · rw [if_neg hp]
          by_cases hp' : (e.1 == k') = true
          · rw [@List.find?_cons_of_pos _ (fun p => p.1 == k') e _ hp',
              @List.find?_cons_of_pos _ (fun p => p.1 == k') e _ hp']
          · rw [@List.find?_cons_of_neg _ (fun p => p.1 == k') e _ hp',
              @List.find?_cons_of_neg _ (fun p => p.1 == k') e _ hp']
            exact ih
  · rw [if_neg h, List.find?_append]
    cases hf : d.find? (fun p => p.1 == k') with
    | some q => rfl
    | none =>
        rw [@List.find?_cons_of_neg _ (fun p => p.1 == k') (k, v) _
          (by simp [Ne.symm hne])]
        rfl

/-- An existing binding makes the membership test true. -/
theorem any_of_dictGet_some (d : Cache) (k : String) (v : AIResponse)
    (h : dictGet d k = some v) : d.any (fun p => p.1 == k) = true := by
  unfold dictGet at h
  cases hf : d.find? (fun p => p.1 == k) with
  | none => rw [hf] at h; simp at h
  | some q =>
      have h1 := List.find?_some hf
      have h2 := List.mem_of_find?_eq_some hf
      exact List.any_eq_true.mpr ⟨q, h2, h1⟩

/-- Overwriting an existing key keeps the number of entries. -/
theorem length_dictSet_of_mem (d : Cache) (k : String) (v : AIResponse)
    (h : d.any (fun p => p.1 == k) = true) :
    (dictSet d k v).length = d.length := by
  simp [dictSet, h]

/-! ## Theorems -/

/-- C10: get_code_completion called with cache_key = None (the default)
neither reads nor writes the completion cache: the returned response is
the service response, unconditionally — whatever its finish_reason — and
the assistant state is returned unchanged, for every cache state. -/
theorem c10_none_cache_key_leaves_cache_untouched :
    ∀ (a : AIAssistant) (now : ℚ) (sr : AIResponse),
      a.get_code_completion none now sr = some (sr, a) := by
  intro a now sr
  rfl

/-- C2 counterexample: constructing a RateLimiter with
requests_per_minute = 0 does not fail — the source __init__ performs no
validation and yields a usable state — whereas the construction the claim
describes (RequestPacer.initChecked, modelled from the spec) rejects the
same input with InvalidConfiguration. -/
theorem c2_counterexample_init_zero_succeeds :
    RateLimiter.init 0 =
      { requests_per_minute := 0, request_times := [] } ∧
    RequestPacer.initChecked 0 60 = .error .invalidConfiguration := by
  refine ⟨rfl, ?_⟩
  simp [RequestPacer.initChecked]

/-- C2 amended: RateLimiter construction never validates its argument and
succeeds for every requests_per_minute, including non-positive values;
with requests_per_minute ≤ 0 the misconfiguration instead surfaces at the
first wait_if_needed call, which fails (Python raises ValueError from
min over the empty timestamp list). -/
theorem c2_amended_construction_never_fails :
    ∀ r : Int,
      RateLimiter.init r = { requests_per_minute := r, request_times := [] } ∧
      (r ≤ 0 → ∀ now : ℚ, (RateLimiter.init r).wait_if_needed now = none) := by
  intro r
  refine ⟨rfl, fun hr now => ?_⟩
  unfold RateLimiter.wait_if_needed purge RateLimiter.init
  simp only [List.filter_nil, List.length_nil, List.min?_nil, Nat.cast_zero, ge_iff_le]
  rw [if_pos hr]

/-- Witness for c2_amended_construction_never_fails at r = 0, now = 5. -/
theorem c2_amended_construction_never_fails_witness :
    RateLimiter.init 0 = { requests_per_minute := 0, request_times := [] } ∧
    (RateLimiter.init 0).wait_if_needed 5 = none :=
  ⟨(c2_amended_construction_never_fails 0).1,
   (c2_amended_construction_never_fails 0).2 (by norm_num) 5⟩

/-- C9: the source holds self.lock across the await asyncio.sleep —
lockHeldDuringSleep is true for the wait_if_needed event sequence when
the sleep branch fires — contradicting the claim that the guard is
released before parking.  Consequence on the serialized trace: with
requests_per_minute = 1 and arrivals at t = 0, 59, 60, the t = 60 caller
is admitted only at t = 119, having queued behind the sleeper. -/
theorem c9_lock_held_across_sleep :
    lockHeldDuringSleep (waitIfNeededEvents true) = true ∧
    (runCalls (RateLimiter.init 1) 0 [0, 59, 60]).map
        (fun res => res.map (fun pr => pr.1.finish)) = some [0, 60, 119] := by
  refine ⟨rfl, ?_⟩
  norm_num [runCalls, RateLimiter.wait_if_needed, RateLimiter.init, purge, List.min?]

/-- C1: the trailing-window admission bound fails.  With
requests_per_minute = 1, three calls all arriving at t = 0 are admitted
at t = 0, 60 and 60: the sleeper records its pre-sleep entry time 0
(line 538), which has aged out by the third call's check, so the third
call is admitted immediately — two admissions in the trailing 60-second
window ending at t = 60, exceeding the limit of 1. -/
theorem c1_trailing_window_bound_violated :
    (runCalls (RateLimiter.init 1) 0 [0, 0, 0]).map
        (fun res => res.map (fun pr => pr.1.finish)) = some [0, 60, 60] ∧
    (runCalls (RateLimiter.init 1) 0 [0, 0, 0]).map
        (fun res => admissionsInWindow (res.map (fun pr => pr.1.finish)) 60) =
      some 2 ∧
    (RateLimiter.init 1).requests_per_minute = 1 := by
  refine ⟨?_, ?_, rfl⟩ <;>
    norm_num [runCalls, RateLimiter.wait_if_needed, RateLimiter.init, purge,
      List.min?, admissionsInWindow]

/-- C7: whenever the post-purge count of stored timestamps is at least
requests_per_minute, wait_if_needed sleeps for exactly
60 - (now - oldest) with oldest = min of the purged timestamps when that
quantity is positive (and does not sleep otherwise); below capacity it
never sleeps.  Concretely, with requests_per_minute = 2 and three calls
at t = 0, the first two return immediately and the third sleeps 60
seconds, returning at t = 60. -/
theorem c7_wait_duration_exact :
    (∀ (rl : RateLimiter) (now : ℚ) (rl' : RateLimiter) (w : ℚ),
       rl.wait_if_needed now = some (rl', w) →
       (((purge now rl.request_times).length : Int) ≥ rl.requests_per_minute →
          ∃ oldest, (purge now rl.request_times).min? = some oldest ∧
            w = if 60 - (now - oldest) > 0 then 60 - (now - oldest) else 0) ∧
       (((purge now rl.request_times).length : Int) < rl.requests_per_minute →
          w = 0)) ∧
    (runCalls (RateLimiter.init 2) 0 [0, 0, 0]).map
        (fun res => res.map (fun pr => (pr.1.wait, pr.1.finish))) =
      some [(0, 0), (0, 0), (60, 60)] := by
  constructor
  · intro rl now rl' w h
    unfold RateLimiter.wait_if_needed at h
    by_cases hc :
        ((purge now rl.request_times).length : Int) ≥ rl.requests_per_minute
    · rw [if_pos hc] at h
      cases hm : (purge now rl.request_times).min? with
      | none => rw [hm] at h; exact absurd h (by simp)
      | some oldest =>
          rw [hm] at h
          refine ⟨fun _ => ⟨oldest, rfl, ?_⟩, fun hlt => absurd hc (not_le.mpr hlt)⟩
          exact (Prod.mk.injEq .. ▸ (Option.some.injEq .. ▸ h)).2.symm
    · rw [if_neg hc] at h
      refine ⟨fun hge => absurd hge hc, fun _ => ?_⟩
      exact (Prod.mk.injEq .. ▸ (Option.some.injEq .. ▸ h)).2.symm
  · norm_num [runCalls, RateLimiter.wait_if_needed, RateLimiter.init, purge,
      List.min?]

/-- Witness for c7_wait_duration_exact: a limiter with limit 1 holding
the timestamp 0, called at t = 30 — at capacity, it sleeps exactly
60 - (30 - 0) = 30 seconds. -/
theorem c7_wait_duration_exact_witness :
    ∃ oldest,
      (purge 30 (RateLimiter.mk 1 [0]).request_times).min? = some oldest ∧
      (30 : ℚ) = if 60 - ((30 : ℚ) - oldest) > 0 then 60 - (30 - oldest) else 0 :=
  (c7_wait_duration_exact.1 ⟨1, [0]⟩ 30 ⟨1, [0, 30]⟩ 30
      (by norm_num [RateLimiter.wait_if_needed, purge, List.min?])).1
    (by norm_num [purge])

/-- C5: the cache check in get_code_completion returns the stored
response exactly when the key is present and now - created_at < 300
(strict), and returns absence otherwise; the check is read-only, and a
stale entry is not purged by it — shown by running get_code_completion on
a stale entry with an erroring service response: the state comes back
identical, stale entry still in place.  (The key is required nonempty:
the source guard `if cache_key and ...` makes the empty string always
miss, and the same truthiness guard on line 582 means an empty key is
never inserted.) -/
theorem c5_lookup_fresh_hit_iff :
    ∀ (cache : Cache) (k : String) (now : ℚ), k ≠ "" →
      (∀ r, cacheLookup cache (some k) now = some r ↔
         dictGet cache k = some r ∧ now - r.created_at < 300) ∧
      (∀ (a : AIAssistant) (r sr : AIResponse),
         a.completion_cache = cache →
         dictGet cache k = some r →
         300 ≤ now - r.created_at →
         sr.finish_reason = "error" →
         a.get_code_completion (some k) now sr = some (sr, a)) := by
  intro cache k now hk
  constructor
  · intro r
    simp only [cacheLookup]
    rw [if_neg hk]
    cases hget : dictGet cache k with
    | none => simp
    | some r' =>
        simp only [Option.some.injEq]
        by_cases hfresh : now - r'.created_at < 300
        · rw [if_pos hfresh]
          simp only [Option.some.injEq]
          constructor
          · rintro rfl
            exact ⟨rfl, hfresh⟩
          · rintro ⟨h1, _⟩
            exact h1
        · rw [if_neg hfresh]
          simp only [false_iff, reduceCtorEq]
          rintro ⟨h1, h2⟩
          exact hfresh (h1 ▸ h2)
  · intro a r sr ha hget hstale herr
    have hl : cacheLookup a.completion_cache (some k) now = none := by
      simp only [cacheLookup, ha, hget]
      rw [if_neg hk, if_neg (not_lt.mpr hstale)]
    simp only [AIAssistant.get_code_completion, hl]
    rw [if_neg]
    rintro ⟨-, h2⟩
    exact h2 herr

/-- Witness for c5_lookup_fresh_hit_iff: an entry created at t = 0, with
staleAfter = 300 — the lookup at t = 299 returns it, the lookup at
t = 301 misses, and the stale-and-error completion call leaves the state
(stale entry included) untouched. -/
theorem c5_lookup_fresh_hit_iff_witness :
    cacheLookup [("a", ⟨"X", "stop", 0⟩)] (some "a") 299 =
      some ⟨"X", "stop", 0⟩ ∧
    cacheLookup [("a", ⟨"X", "stop", 0⟩)] (some "a") 301 = none ∧
    AIAssistant.get_code_completion ⟨[("a", ⟨"X", "stop", 0⟩)], 100⟩
        (some "a") 301 ⟨"E", "error", 301⟩ =
      some (⟨"E", "error", 301⟩, ⟨[("a", ⟨"X", "stop", 0⟩)], 100⟩) := by
  have h299 := (c5_lookup_fresh_hit_iff [("a", ⟨"X", "stop", 0⟩)] "a" 299
    (by decide)).1
  have h301 := c5_lookup_fresh_hit_iff [("a", ⟨"X", "stop", 0⟩)] "a" 301
    (by decide)
  refine ⟨?_, ?_, ?_⟩
  · exact (h299 ⟨"X", "stop", 0⟩).mpr
      ⟨by simp [dictGet, List.find?_cons], by norm_num⟩
  · cases hc : cacheLookup [("a", ⟨"X", "stop", 0⟩)] (some "a") 301 with
    | none => rfl
    | some r =>
        have hr := (h301.1 r).mp hc
        have : dictGet [("a", (⟨"X", "stop", 0⟩ : AIResponse))] "a" =
            some ⟨"X", "stop", 0⟩ := by simp [dictGet, List.find?_cons]
        rw [this, Option.some.injEq] at hr
        obtain ⟨rfl, hlt⟩ := hr
        norm_num at hlt
  · exact h301.2 ⟨[("a", ⟨"X", "stop", 0⟩)], 100⟩ ⟨"X", "stop", 0⟩
      ⟨"E", "error", 301⟩ rfl (by simp [dictGet, List.find?_cons])
      (by norm_num) rfl

/-- C3 counterexample: with maxEntries = 2 and a full cache
{a ↦ X@0, b ↦ Y@1}, overwriting the existing key b does trigger
eviction — the oldest entry a is removed, the size drops from 2 to 1 —
refuting both "never triggers eviction" and "size does not change" and
"no other key is removed by the overwrite". -/
theorem c3_counterexample_overwrite_at_capacity_evicts :
    ∃ a', AIAssistant._add_to_cache
        ⟨[("a", ⟨"X", "stop", 0⟩), ("b", ⟨"Y", "stop", 1⟩)], 2⟩
        "b" ⟨"Z", "stop", 2⟩ = some a' ∧
      a'.completion_cache.length = 1 ∧
      ([("a", (⟨"X", "stop", 0⟩ : AIResponse)),
        ("b", ⟨"Y", "stop", 1⟩)] : Cache).length = 2 ∧
      dictGet a'.completion_cache "a" = none ∧
      dictGet a'.completion_cache "b" = some ⟨"Z", "stop", 2⟩ := by
  refine ⟨⟨[("b", ⟨"Z", "stop", 2⟩)], 2⟩, ?_, rfl, rfl, rfl, rfl⟩
  norm_num [AIAssistant._add_to_cache, oldestEntry, dictDel, dictSet, dictGet,
    List.find?_cons]
  simp

/-- C3 amended: a put that overwrites an existing key triggers no
eviction and leaves the size (and every other binding) unchanged only
while the cache is strictly below cache_max_size; once the cache is at
capacity, every put — overwrites included — first evicts the entry with
the smallest created_at.  The maxEntries = 1 example still ends as the
claim says: put a X then put a Y leaves exactly the entry ("a", Y)
(there the evicted oldest entry is "a" itself, so no other key is
touched). -/
theorem c3_amended_overwrite_below_capacity_no_eviction :
    (∀ (a : AIAssistant) (k : String) (v old : AIResponse),
       a.completion_cache.length < a.cache_max_size →
       dictGet a.completion_cache k = some old →
       ∃ a', a._add_to_cache k v = some a' ∧
         a'.cache_max_size = a.cache_max_size ∧
         a'.completion_cache.length = a.completion_cache.length ∧
         dictGet a'.completion_cache k = some v ∧
         (∀ k', k' ≠ k →
            dictGet a'.completion_cache k' = dictGet a.completion_cache k')) ∧
    runOps ⟨[], 1⟩ [.put "a" ⟨"X", "stop", 0⟩, .put "a" ⟨"Y", "stop", 1⟩] =
      some ⟨[("a", ⟨"Y", "stop", 1⟩)], 1⟩ := by
  constructor
  · intro a k v old hlt hget
    have hmem := any_of_dictGet_some _ _ _ hget
    refine ⟨{ a with completion_cache := dictSet a.completion_cache k v },
      ?_, rfl, ?_, ?_, ?_⟩
    · unfold AIAssistant._add_to_cache
      rw [if_neg (not_le.mpr hlt)]
    · exact length_dictSet_of_mem _ _ _ hmem
    · exact dictGet_dictSet_self _ _ _
    · intro k' hk'
      exact dictGet_dictSet_ne _ _ _ _ hk'
  · norm_num [runOps, AIAssistant._add_to_cache, oldestEntry, dictDel, dictSet,
      dictGet, List.find?_cons]

/-- Witness for c3_amended_overwrite_below_capacity_no_eviction: a cache
holding one entry out of a bound of 2 is overwritten at its existing
key. -/
theorem c3_amended_overwrite_below_capacity_no_eviction_witness :
    ∃ a', AIAssistant._add_to_cache ⟨[("a", ⟨"X", "stop", 0⟩)], 2⟩
        "a" ⟨"Y", "stop", 7⟩ = some a' ∧
      a'.cache_max_size = 2 ∧
      a'.completion_cache.length =
        ([("a", (⟨"X", "stop", 0⟩ : AIResponse))] : Cache).length ∧
      dictGet a'.completion_cache "a" = some ⟨"Y", "stop", 7⟩ ∧
      (∀ k', k' ≠ "a" →
         dictGet a'.completion_cache k' =
           dictGet [("a", ⟨"X", "stop", 0⟩)] k') :=
  c3_amended_overwrite_below_capacity_no_eviction.1
    ⟨[("a", ⟨"X", "stop", 0⟩)], 2⟩ "a" ⟨"Y", "stop", 7⟩ ⟨"X", "stop", 0⟩
    (by decide) (by simp [dictGet, List.find?_cons])

/-- Python min-with-key over a nonempty scan: the running fold returns
the first element (in iteration order) attaining the minimal created_at —
everything before it is strictly younger-keyed, everything after it is
greater or equal. -/
theorem oldestFold_spec (rest : Cache) :
    ∀ p : String × AIResponse,
      ∃ l₁ l₂,
        p :: rest =
          l₁ ++ (rest.foldl
            (fun q r => if r.2.created_at < q.2.created_at then r else q) p)
            :: l₂ ∧
        (∀ q ∈ l₁,
          (rest.foldl
            (fun q r => if r.2.created_at < q.2.created_at then r else q)
            p).2.created_at < q.2.created_at) ∧
        (∀ q ∈ l₂,
          (rest.foldl
            (fun q r => if r.2.created_at < q.2.created_at then r else q)
            p).2.created_at ≤ q.2.created_at) := by
  induction rest with
  | nil =>
      intro p
      exact ⟨[], [], rfl, by simp, by simp⟩
  | cons e rest ih =>
      intro p
      rw [List.foldl_cons]
      by_cases he : e.2.created_at < p.2.created_at
      · rw [if_pos he]
        obtain ⟨l₁, l₂, hdec, hlt, hle⟩ := ih e
        cases l₁ with
        | nil =>
            simp only [List.nil_append] at hdec
            obtain ⟨hme, hrest⟩ := List.cons_eq_cons.mp hdec
            refine ⟨[p], l₂, ?_, ?_, hle⟩
            · rw [List.cons_append, List.nil_append, ← hme, ← hrest]
            · intro q hq
              rw [List.mem_singleton] at hq
              subst hq
              rw [← hme]
              exact he
        | cons x l₁' =>
            rw [List.cons_append] at hdec
            obtain ⟨hxe, hrest⟩ := List.cons_eq_cons.mp hdec
            subst hxe
            refine ⟨p :: e :: l₁', l₂, ?_, ?_, hle⟩
            · rw [List.cons_append, List.cons_append, ← hrest]
            · intro q hq
              have hel : e ∈ e :: l₁' := List.mem_cons_self e l₁'
              rcases List.mem_cons.mp hq with rfl | hq'
              · exact lt_trans (hlt e hel) he
              · exact hlt q hq'
      · rw [if_neg he]
        have hpe : p.2.created_at ≤ e.2.created_at := le_of_not_lt he
        obtain ⟨l₁, l₂, hdec, hlt, hle⟩ := ih p
        cases l₁ with
        | nil =>
            simp only [List.nil_append] at hdec
            obtain ⟨hmp, hrest⟩ := List.cons_eq_cons.mp hdec
            refine ⟨[], e :: l₂, ?_, by simp, ?_⟩
            · rw [List.nil_append, ← hmp, ← hrest]
            · intro q hq
              rcases List.mem_cons.mp hq with rfl | hq'
              · rw [← hmp]
                exact hpe
              · exact hle q hq'
        | cons x l₁' =>
            rw [List.cons_append] at hdec
            obtain ⟨hxp, hrest⟩ := List.cons_eq_cons.mp hdec
            subst hxp
            refine ⟨p :: e :: l₁', l₂, ?_, ?_, hle⟩
            · rw [List.cons_append, List.cons_append, ← hrest]
            · intro q hq
              have hpl : p ∈ p :: l₁' := List.mem_cons_self p l₁'
              have hmp := hlt p hpl
              rcases List.mem_cons.mp hq with rfl | hq'
              · exact hmp
              · rcases List.mem_cons.mp hq' with rfl | hq''
                · exact lt_of_lt_of_le hmp hpe
                · exact hlt q (List.mem_cons_of_mem p hq'')

/-- Characterization of oldestEntry: the returned entry splits the cache
into a strictly-younger prefix and a no-older suffix — it is the first
entry attaining the minimal created_at, i.e. the one Python
min(keys, key=...) picks, ties broken by insertion order. -/
theorem oldestEntry_spec (d : Cache) (m : String × AIResponse)
    (h : oldestEntry d = some m) :
    ∃ l₁ l₂, d = l₁ ++ m :: l₂ ∧
      (∀ q ∈ l₁, m.2.created_at < q.2.created_at) ∧
      (∀ q ∈ l₂, m.2.created_at ≤ q.2.created_at) := by
  cases d with
  | nil => simp [oldestEntry] at h
  | cons p rest =>
      simp only [oldestEntry, Option.some.injEq] at h
      subst h
      exact oldestFold_spec rest p

theorem oldestEntry_mem (d : Cache) (m : String × AIResponse)
    (h : oldestEntry d = some m) : m ∈ d := by
  obtain ⟨l₁, l₂, hdec, -, -⟩ := oldestEntry_spec d m h
  rw [hdec]
  exact List.mem_append.mpr (Or.inr (List.mem_cons_self m l₂))

theorem oldestEntry_of_ne_nil (d : Cache) (h : d ≠ []) :
    ∃ m, oldestEntry d = some m := by
  cases d with
  | nil => exact absurd rfl h
  | cons p rest => exact ⟨_, rfl⟩

/-- Every binding a dictGet miss rules out. -/
theorem ne_of_dictGet_none (d : Cache) (k : String) (h : dictGet d k = none) :
    ∀ q ∈ d, q.1 ≠ k := by
  unfold dictGet at h
  cases hf : d.find? (fun p => p.1 == k) with
  | some q => rw [hf] at h; simp at h
  | none =>
      have hall := List.find?_eq_none.mp hf
      intro q hq
      simpa using hall q hq

/-- Deleting the key of the (unique, by nodup) entry m from a
decomposed cache removes exactly that entry. -/
theorem dictDel_decomp (l₁ l₂ : Cache) (m : String × AIResponse)
    (hnod : keysNodup (l₁ ++ m :: l₂)) :
    dictDel (l₁ ++ m :: l₂) m.1 = l₁ ++ l₂ := by
  unfold keysNodup at hnod
  rw [List.map_append, List.map_cons, List.nodup_append] at hnod
  obtain ⟨hn1, hn2, hdisj⟩ := hnod
  have hm1 : m.1 ∉ l₂.map Prod.fst := (List.nodup_cons.mp hn2).1
  have hm2 : m.1 ∉ l₁.map Prod.fst := by
    intro hmem
    exact hdisj hmem (List.mem_cons_self m.1 _)
  unfold dictDel
  rw [List.filter_append, List.filter_cons]
  have hmfalse : (!(m.1 == m.1)) = false := by simp
  rw [hmfalse]
  have h1 : l₁.filter (fun p => !(p.1 == m.1)) = l₁ := by
    rw [List.filter_eq_self]
    intro q hq
    have : q.1 ≠ m.1 := fun he => hm2 (he ▸ List.mem_map_of_mem Prod.fst hq)
    simpa using this
  have h2 : l₂.filter (fun p => !(p.1 == m.1)) = l₂ := by
    rw [List.filter_eq_self]
    intro q hq
    have : q.1 ≠ m.1 := fun he => hm1 (he ▸ List.mem_map_of_mem Prod.fst hq)
    simpa using this
  rw [h1, h2]
  simp

/-- Storing a key absent from the dict appends the new binding. -/
theorem dictSet_fresh (d : Cache) (k : String) (v : AIResponse)
    (h : ∀ q ∈ d, q.1 ≠ k) : dictSet d k v = d ++ [(k, v)] := by
  unfold dictSet
  rw [if_neg]
  intro hany
  obtain ⟨x, hx, hxk⟩ := List.any_eq_true.mp hany
  exact h x hx (by simpa using hxk)

/-- C4: when inserting a new key into a cache at (or beyond) capacity,
_add_to_cache evicts exactly one entry before the insert: the entry with
the smallest created_at, ties broken by insertion order (the cache
decomposes as l₁ ++ m :: l₂ with every entry of l₁ strictly younger than
m and every entry of l₂ no older; m is removed, all other entries stay
in order, and the new binding is appended).  The example: with
maxEntries = 2 after put a@0, put b@1, put c@2, get a at t = 2 misses
while get b and get c return their values. -/
theorem c4_eviction_oldest_first :
    (∀ (a : AIAssistant) (k : String) (v : AIResponse),
       keysNodup a.completion_cache →
       1 ≤ a.cache_max_size →
       a.cache_max_size ≤ a.completion_cache.length →
       dictGet a.completion_cache k = none →
       ∃ l₁ m l₂,
         a.completion_cache = l₁ ++ m :: l₂ ∧
         (∀ q ∈ l₁, m.2.created_at < q.2.created_at) ∧
         (∀ q ∈ l₂, m.2.created_at ≤ q.2.created_at) ∧
         a._add_to_cache k v =
           some { a with completion_cache := (l₁ ++ l₂) ++ [(k, v)] }) ∧
    (∃ a3, runOps ⟨[], 2⟩
        [.put "a" ⟨"X", "stop", 0⟩, .put "b" ⟨"Y", "stop", 1⟩,
         .put "c" ⟨"Z", "stop", 2⟩] = some a3 ∧
      cacheLookup a3.completion_cache (some "a") 2 = none ∧
      cacheLookup a3.completion_cache (some "b") 2 = some ⟨"Y", "stop", 1⟩ ∧
      cacheLookup a3.completion_cache (some "c") 2 = some ⟨"Z", "stop", 2⟩) := by
  constructor
  · intro a k v hnod hmax hfull hnew
    have hne : a.completion_cache ≠ [] := by
      intro h0
      rw [h0] at hfull
      simp at hfull
      omega
    obtain ⟨m, hm⟩ := oldestEntry_of_ne_nil _ hne
    obtain ⟨l₁, l₂, hdec, hlt, hle⟩ := oldestEntry_spec _ _ hm
    refine ⟨l₁, m, l₂, hdec, hlt, hle, ?_⟩
    unfold AIAssistant._add_to_cache
    rw [if_pos hfull]
    have hdel : dictDel a.completion_cache m.1 = l₁ ++ l₂ := by
      rw [hdec]
      exact dictDel_decomp l₁ l₂ m (hdec ▸ hnod)
    simp only [hm]
    rw [hdel]
    have hfresh : ∀ q ∈ l₁ ++ l₂, q.1 ≠ k := by
      intro q hq
      refine ne_of_dictGet_none _ _ hnew q ?_
      rw [hdec]
      rcases List.mem_append.mp hq with h | h
      · exact List.mem_append.mpr (Or.inl h)
      · exact List.mem_append.mpr (Or.inr (List.mem_cons_of_mem m h))
    rw [dictSet_fresh _ _ _ hfresh]
  · refine ⟨⟨[("b", ⟨"Y", "stop", 1⟩), ("c", ⟨"Z", "stop", 2⟩)], 2⟩, ?_, ?_, ?_, ?_⟩
    · repeat first
        | rfl
        | norm_num [runOps, AIAssistant._add_to_cache, oldestEntry, dictDel,
            dictSet, dictGet, List.find?_cons]
        | simp
    · norm_num [cacheLookup, dictGet, List.find?_cons] <;> simp
    · norm_num [cacheLookup, dictGet, List.find?_cons] <;> simp
    · norm_num [cacheLookup, dictGet, List.find?_cons] <;> simp

/-- Witness for c4_eviction_oldest_first: inserting the new key c into
the full two-entry cache {a ↦ X@0, b ↦ Y@1} with bound 2. -/
theorem c4_eviction_oldest_first_witness :
    ∃ l₁ m l₂,
      ([("a", ⟨"X", "stop", 0⟩), ("b", ⟨"Y", "stop", 1⟩)] : Cache) =
        l₁ ++ m :: l₂ ∧
      (∀ q ∈ l₁, m.2.created_at < q.2.created_at) ∧
      (∀ q ∈ l₂, m.2.created_at ≤ q.2.created_at) ∧
      AIAssistant._add_to_cache
          ⟨[("a", ⟨"X", "stop", 0⟩), ("b", ⟨"Y", "stop", 1⟩)], 2⟩
          "c" ⟨"Z", "stop", 2⟩ =
        some { completion_cache := (l₁ ++ l₂) ++ [("c", ⟨"Z", "stop", 2⟩)],
               cache_max_size := 2 } :=
  c4_eviction_oldest_first.1
    ⟨[("a", ⟨"X", "stop", 0⟩), ("b", ⟨"Y", "stop", 1⟩)], 2⟩
    "c" ⟨"Z", "stop", 2⟩ (by unfold keysNodup; decide) (by decide) (by decide)
    (by simp [dictGet, List.find?_cons])

/-- Membership in the purged list: the timestamp was already recorded
and is strictly within the 60-second window of the purge instant. -/
theorem mem_purge (now : ℚ) (l : List ℚ) (t : ℚ) (h : t ∈ purge now l) :
    t ∈ l ∧ now - t < 60 := by
  unfold purge at h
  have h' := List.mem_filter.mp h
  exact ⟨h'.1, by simpa using h'.2⟩

/-- One wait_if_needed step, started at `now` with only past timestamps
recorded: the wait is nonnegative, and at the instant the call returns
(now + w) every recorded timestamp is in the past and at most 60 seconds
old. -/
theorem wait_if_needed_ages (rl : RateLimiter) (now : ℚ)
    (hpast : ∀ ts ∈ rl.request_times, ts ≤ now) :
    ∀ rl' w, rl.wait_if_needed now = some (rl', w) →
      0 ≤ w ∧ ∀ ts ∈ rl'.request_times, ts ≤ now + w ∧ now + w - ts ≤ 60 := by
  intro rl' w h
  unfold RateLimiter.wait_if_needed at h
  by_cases hc :
      ((purge now rl.request_times).length : Int) ≥ rl.requests_per_minute
  · rw [if_pos hc] at h
    cases hm : (purge now rl.request_times).min? with
    | none => rw [hm] at h; exact absurd h (by simp)
    | some oldest =>
        rw [hm] at h
        simp only [Option.some.injEq, Prod.mk.injEq] at h
        obtain ⟨hrl, hw⟩ := h
        have hmem : oldest ∈ purge now rl.request_times := by
          haveI : Std.Antisymm (fun x1 x2 : ℚ => x1 ≤ x2) :=
            ⟨fun h1 h2 => le_antisymm h1 h2⟩
          exact ((List.min?_eq_some_iff (fun _ => le_refl _)
            (fun a b => min_choice a b) (fun a b c => le_min_iff)).mp hm).1
        have hleast : ∀ b ∈ purge now rl.request_times, oldest ≤ b := by
          haveI : Std.Antisymm (fun x1 x2 : ℚ => x1 ≤ x2) :=
            ⟨fun h1 h2 => le_antisymm h1 h2⟩
          exact ((List.min?_eq_some_iff (fun _ => le_refl _)
            (fun a b => min_choice a b) (fun a b c => le_min_iff)).mp hm).2
        have honow : oldest ≤ now := hpast oldest (mem_purge now _ oldest hmem).1
        by_cases hwt : 60 - (now - oldest) > 0
        · rw [if_pos hwt] at hw
          subst hw
          refine ⟨le_of_lt hwt, ?_⟩
          intro ts hts
          rw [← hrl] at hts
          simp only [List.mem_append, List.mem_singleton] at hts
          rcases hts with hin | rfl
          · have h1 := (mem_purge now _ ts hin).2
            have h2 := hpast ts (mem_purge now _ ts hin).1
            have h3 := hleast ts hin
            constructor <;> linarith
          · constructor <;> linarith
        · rw [if_neg hwt] at hw
          subst hw
          refine ⟨le_refl 0, ?_⟩
          intro ts hts
          rw [← hrl] at hts
          simp only [List.mem_append, List.mem_singleton] at hts
          rcases hts with hin | rfl
          · have h1 := (mem_purge now _ ts hin).2
            have h2 := hpast ts (mem_purge now _ ts hin).1
            constructor <;> linarith
          · constructor <;> linarith
  · rw [if_neg hc] at h
    simp only [Option.some.injEq, Prod.mk.injEq] at h
    obtain ⟨hrl, hw⟩ := h
    subst hw
    refine ⟨le_refl 0, ?_⟩
    intro ts hts
    rw [← hrl] at hts
    simp only [List.mem_append, List.mem_singleton] at hts
    rcases hts with hin | rfl
    · have h1 := (mem_purge now _ ts hin).2
      have h2 := hpast ts (mem_purge now _ ts hin).1
      constructor <;> linarith
    · constructor <;> linarith

/-- Along any serialized trace that starts with only past timestamps,
every call returns with all recorded timestamps at most 60 seconds old
(measured at that call's return instant). -/
theorem runCalls_ages (arrivals : List ℚ) :
    ∀ (rl : RateLimiter) (t : ℚ),
      (∀ ts ∈ rl.request_times, ts ≤ t) →
      ∀ res, runCalls rl t arrivals = some res →
        ∀ pr ∈ res, ∀ ts ∈ pr.2.request_times,
          ts ≤ pr.1.finish ∧ pr.1.finish - ts ≤ 60 := by
  induction arrivals with
  | nil =>
      intro rl t hpast res hres pr hpr
      simp only [runCalls, Option.some.injEq] at hres
      subst hres
      simp at hpr
  | cons a rest ih =>
      intro rl t hpast res hres pr hpr
      simp only [runCalls] at hres
      cases hw : rl.wait_if_needed (max a t) with
      | none => rw [hw] at hres; simp at hres
      | some pr' =>
          obtain ⟨rl', w⟩ := pr'
          simp only [hw] at hres
          cases hrec : runCalls rl' (max a t + w) rest with
          | none => rw [hrec] at hres; simp at hres
          | some recs =>
              rw [hrec] at hres
              simp only [Option.map_some', Option.some.injEq] at hres
              subst hres
              have hstart : ∀ ts ∈ rl.request_times, ts ≤ max a t :=
                fun ts h => le_trans (hpast ts h) (le_max_right a t)
              have hb := wait_if_needed_ages rl (max a t) hstart rl' w hw
              rcases List.mem_cons.mp hpr with rfl | hpr'
              · intro ts hts
                exact hb.2 ts hts
              · refine ih rl' (max a t + w) ?_ recs hrec pr hpr'
                intro ts hts
                exact (hb.2 ts hts).1

/-- C6: at the return of every wait_if_needed call in any serialized
trace from a fresh limiter, every timestamp stored in request_times is
within the 60-second window of the return instant (ages are ≤ 60,
attained exactly at post-sleep returns); moreover entries older than the
window are purged before each admission decision — the decision reads
only the purged list, whose members are all strictly younger than 60
seconds. -/
theorem c6_timestamps_within_window :
    (∀ (rpm : Int) (t₀ : ℚ) (arrivals : List ℚ) res,
       runCalls (RateLimiter.init rpm) t₀ arrivals = some res →
       ∀ pr ∈ res, ∀ ts ∈ pr.2.request_times,
         ts ≤ pr.1.finish ∧ pr.1.finish - ts ≤ 60) ∧
    (∀ (now : ℚ) (l : List ℚ), ∀ ts ∈ purge now l, now - ts < 60) := by
  constructor
  · intro rpm t₀ arrivals res hres
    exact runCalls_ages arrivals (RateLimiter.init rpm) t₀
      (by intro ts hts; simp [RateLimiter.init] at hts) res hres
  · intro now l ts h
    exact (mem_purge now l ts h).2

/-- Witness for c6_timestamps_within_window: limit 1, calls arriving at
t = 0 and t = 30; the second call sleeps until t = 60, and at its return
both stored timestamps (0 and 30) are at most 60 seconds old. -/
theorem c6_timestamps_within_window_witness :
    runCalls (RateLimiter.init 1) 0 [0, 30] =
      some [({ start := 0, wait := 0, finish := 0 },
             { requests_per_minute := 1, request_times := [0] }),
            ({ start := 30, wait := 30, finish := 60 },
             { requests_per_minute := 1, request_times := [0, 30] })] ∧
    ((0 : ℚ) ≤ 60 ∧ (60 : ℚ) - 0 ≤ 60) ∧ ((30 : ℚ) ≤ 60 ∧ (60 : ℚ) - 30 ≤ 60) := by
  have heval : runCalls (RateLimiter.init 1) 0 [0, 30] =
      some [({ start := 0, wait := 0, finish := 0 },
             { requests_per_minute := 1, request_times := [0] }),
            ({ start := 30, wait := 30, finish := 60 },
             { requests_per_minute := 1, request_times := [0, 30] })] := by
    norm_num [runCalls, RateLimiter.wait_if_needed, RateLimiter.init, purge,
      List.min?]
  have happ := c6_timestamps_within_window.1 1 0 [0, 30] _ heval
    ({ start := 30, wait := 30, finish := 60 },
     { requests_per_minute := 1, request_times := [0, 30] })
    (by simp)
  refine ⟨heval, ?_, ?_⟩
  · simpa using happ 0 (by simp)
  · simpa using happ 30 (by simp)

/-- Storing a binding grows the dict by at most one entry. -/
theorem length_dictSet_le (d : Cache) (k : String) (v : AIResponse) :
    (dictSet d k v).length ≤ d.length + 1 := by
  unfold dictSet
  by_cases h : d.any (fun p => p.1 == k) = true
  · rw [if_pos h, List.length_map]
    omega
  · rw [if_neg h, List.length_append]
    simp

/-- Filtering out an element that is present strictly shrinks a list. -/
theorem length_filter_lt_of_mem {α : Type} (p : α → Bool) (l : List α)
    (x : α) (hx : x ∈ l) (hpx : p x = false) :
    (l.filter p).length < l.length := by
  induction l with
  | nil => simp at hx
  | cons e rest ih =>
      rw [List.filter_cons]
      rcases List.mem_cons.mp hx with rfl | hx'
      · rw [hpx]
        simp only [List.length_cons]
        exact Nat.lt_succ_of_le (List.length_filter_le p rest)
      · by_cases hpe : p e = true
        · rw [if_pos hpe]
          simp only [List.length_cons]
          exact Nat.succ_lt_succ (ih hx')
        · rw [if_neg hpe]
          simp only [List.length_cons]
          exact Nat.lt_succ_of_lt (ih hx')

/-- Deleting a key that is present strictly shrinks the dict. -/
theorem length_dictDel_lt (d : Cache) (m : String × AIResponse)
    (hm : m ∈ d) : (dictDel d m.1).length < d.length := by
  unfold dictDel
  exact length_filter_lt_of_mem _ d m hm (by simp)

/-- _add_to_cache from any state within its bound (with a positive
bound): the insert always succeeds — the bound is enforced by eviction,
never by rejecting the insert — the new binding is present afterwards,
and the size stays within the bound. -/
theorem add_to_cache_bound (a : AIAssistant) (k : String) (r : AIResponse)
    (hmax : 1 ≤ a.cache_max_size)
    (hlen : a.completion_cache.length ≤ a.cache_max_size) :
    ∃ a', a._add_to_cache k r = some a' ∧
      a'.cache_max_size = a.cache_max_size ∧
      a'.completion_cache.length ≤ a.cache_max_size ∧
      dictGet a'.completion_cache k = some r := by
  unfold AIAssistant._add_to_cache
  by_cases hc : a.completion_cache.length ≥ a.cache_max_size
  · have hne : a.completion_cache ≠ [] := by
      intro h0
      rw [h0] at hc
      simp at hc
      omega
    obtain ⟨m, hm⟩ := oldestEntry_of_ne_nil _ hne
    rw [if_pos hc]
    simp only [hm]
    refine ⟨_, rfl, rfl, ?_, dictGet_dictSet_self _ _ _⟩
    have h1 : (dictDel a.completion_cache m.1).length <
        a.completion_cache.length :=
      length_dictDel_lt _ _ (oldestEntry_mem _ _ hm)
    have h2 := length_dictSet_le (dictDel a.completion_cache m.1) k r
    show (dictSet (dictDel a.completion_cache m.1) k r).length ≤
      a.cache_max_size
    omega
  · rw [if_neg hc]
    refine ⟨_, rfl, rfl, ?_, dictGet_dictSet_self _ _ _⟩
    have h2 := length_dictSet_le a.completion_cache k r
    push_neg at hc
    show (dictSet a.completion_cache k r).length ≤ a.cache_max_size
    omega

/-- The state coming out of get_code_completion is either the input
state (cache hit, None or empty key, or error response) or the result of
_add_to_cache on the service response. -/
theorem get_code_completion_state (a : AIAssistant) (ck : Option String)
    (now : ℚ) (sr resp : AIResponse) (a' : AIAssistant)
    (h : a.get_code_completion ck now sr = some (resp, a')) :
    a' = a ∨ ∃ k, a._add_to_cache k sr = some a' := by
  unfold AIAssistant.get_code_completion at h
  cases hl : cacheLookup a.completion_cache ck now with
  | some cached =>
      simp only [hl, Option.some.injEq, Prod.mk.injEq] at h
      exact Or.inl h.2.symm
  | none =>
      simp only [hl] at h
      split at h
      · simp only [Option.some.injEq, Prod.mk.injEq] at h
        exact Or.inl h.2.symm
      · rename_i k
        split at h
        · cases hadd : a._add_to_cache k sr with
          | none => rw [hadd] at h; simp at h
          | some a2 =>
              rw [hadd] at h
              simp only [Option.map_some', Option.some.injEq,
                Prod.mk.injEq] at h
              exact Or.inr ⟨k, by rw [hadd, h.2]⟩
        · simp only [Option.some.injEq, Prod.mk.injEq] at h
          exact Or.inl h.2.symm

/-- Along any sequence of cache operations from a state within its
(positive) bound, the bound and the cache size invariant are
preserved. -/
theorem runOps_bound (ops : List CacheOp) :
    ∀ a : AIAssistant, 1 ≤ a.cache_max_size →
      a.completion_cache.length ≤ a.cache_max_size →
      ∀ a', runOps a ops = some a' →
        a'.cache_max_size = a.cache_max_size ∧
        a'.completion_cache.length ≤ a.cache_max_size := by
  induction ops with
  | nil =>
      intro a hmax hlen a' hrun
      simp only [runOps, Option.some.injEq] at hrun
      subst hrun
      exact ⟨rfl, hlen⟩
  | cons op rest ih =>
      intro a hmax hlen a' hrun
      cases op with
      | put k r =>
          simp only [runOps] at hrun
          obtain ⟨a1, heq, hm1, hl1, -⟩ := add_to_cache_bound a k r hmax hlen
          rw [heq] at hrun
          have := ih a1 (hm1 ▸ hmax) (hm1 ▸ hl1) a' hrun
          exact ⟨hm1 ▸ this.1, hm1 ▸ this.2⟩
      | get ck now sr =>
          simp only [runOps] at hrun
          cases hg : a.get_code_completion ck now sr with
          | none => rw [hg] at hrun; simp at hrun
          | some pr =>
              obtain ⟨resp, a1⟩ := pr
              rw [hg] at hrun
              rcases get_code_completion_state a ck now sr resp a1 hg with
                rfl | ⟨k, hadd⟩
              · exact ih a1 hmax hlen a' hrun
              · obtain ⟨a2, heq, hm1, hl1, -⟩ :=
                  add_to_cache_bound a k sr hmax hlen
                rw [heq] at hadd
                obtain rfl : a2 = a1 := by
                  simpa using hadd
                have := ih a2 (hm1 ▸ hmax) (hm1 ▸ hl1) a' hrun
                exact ⟨hm1 ▸ this.1, hm1 ▸ this.2⟩
      | clear =>
          simp only [runOps] at hrun
          have := ih a.clear_cache hmax (by simp [AIAssistant.clear_cache])
            a' hrun
          exact this

/-- C8: along every sequence of put/get/clear operations from an empty
cache with a positive bound, the number of entries never exceeds
cache_max_size; and from any reachable state a further insertion is
never rejected — it succeeds, lands the new binding in the cache, and
keeps the size within the bound (the bound is enforced by eviction).
The source instance AIAssistant.init has cache_max_size = 100. -/
theorem c8_cache_size_bounded :
    (∀ (max : Nat) (ops : List CacheOp) (a' : AIAssistant),
       1 ≤ max →
       runOps ⟨[], max⟩ ops = some a' →
       a'.completion_cache.length ≤ max ∧
       ∀ k r, ∃ a2, a'._add_to_cache k r = some a2 ∧
         dictGet a2.completion_cache k = some r ∧
         a2.completion_cache.length ≤ max) ∧
    AIAssistant.init = ⟨[], 100⟩ := by
  refine ⟨?_, rfl⟩
  intro max ops a' hmax hrun
  have hb := runOps_bound ops ⟨[], max⟩ hmax (by simp) a' hrun
  have hmx : a'.cache_max_size = max := hb.1
  refine ⟨hb.2, fun k r => ?_⟩
  have hmax' : 1 ≤ a'.cache_max_size := by rw [hmx]; exact hmax
  have hlen' : a'.completion_cache.length ≤ a'.cache_max_size := by
    rw [hmx]; exact hb.2
  obtain ⟨a2, h1, h2, h3, h4⟩ := add_to_cache_bound a' k r hmax' hlen'
  refine ⟨a2, h1, h4, ?_⟩
  rw [← hmx]
  exact h3

/-- Witness for c8_cache_size_bounded: bound 1, two puts (the second
evicts the first), then a third insertion into the reachable state. -/
theorem c8_cache_size_bounded_witness :
    runOps ⟨[], 1⟩ [.put "a" ⟨"X", "stop", 0⟩, .put "b" ⟨"Y", "stop", 1⟩] =
      some ⟨[("b", ⟨"Y", "stop", 1⟩)], 1⟩ ∧
    ([("b", (⟨"Y", "stop", 1⟩ : AIResponse))] : Cache).length ≤ 1 ∧
    (∃ a2, AIAssistant._add_to_cache ⟨[("b", ⟨"Y", "stop", 1⟩)], 1⟩
        "c" ⟨"Z", "stop", 2⟩ = some a2 ∧
      dictGet a2.completion_cache "c" = some ⟨"Z", "stop", 2⟩ ∧
      a2.completion_cache.length ≤ 1) := by
  have hrun : runOps ⟨[], 1⟩
      [.put "a" ⟨"X", "stop", 0⟩, .put "b" ⟨"Y", "stop", 1⟩] =
      some ⟨[("b", ⟨"Y", "stop", 1⟩)], 1⟩ := by
    repeat first
      | rfl
      | norm_num [runOps, AIAssistant._add_to_cache, oldestEntry, dictDel,
          dictSet, dictGet, List.find?_cons]
      | simp
  have happ := c8_cache_size_bounded.1 1
    [.put "a" ⟨"X", "stop", 0⟩, .put "b" ⟨"Y", "stop", 1⟩]
    ⟨[("b", ⟨"Y", "stop", 1⟩)], 1⟩ (by norm_num) hrun
  exact ⟨hrun, happ.1, happ.2 "c" ⟨"Z", "stop", 2⟩⟩

end CursorClone
